import Mathlib

/-!
Verification of the torch3d core: a shallow embedding of
`src/torch3d/metrics/iou.py` (the IoU accumulator, value-level over ℚ) and of
`src/torch3d/nn/layers.py` (the four geometric layers, at the level of tensor
shapes and of the value-level computations the claims are about).

The helpers `knn`, `ball_point`, `batched_index_select` and
`point_interpolate` live in `torch3d.nn.functional`, which is not part of the
source slice; those are modelled from the spec (and marked as such).
Real-valued tensor entries are modelled as rationals; an IEEE non-finite
division result is modelled by `Option` (`none` = non-finite), which agrees
with IEEE on the nonnegative counters involved: `a / b` is finite exactly when
`b ≠ 0` there.
-/

/-! ## IoU metric (src/torch3d/metrics/iou.py) -/

/-- Index of the first maximal entry of a score vector, modelling
`torch.argmax` along the class dimension for one pixel (ties resolved to the
first maximal value). `argmaxIdx [] = 0` is irrelevant: class score vectors
are nonempty. -/
def argmaxIdx : List ℚ → ℕ
  | [] => 0
  | [_] => 0
  | a :: b :: rest =>
      let j := argmaxIdx (b :: rest)
      if a < (b :: rest).getD j 0 then j + 1 else 0

/-- `torch.sum(a & b)` of `update`: the number of pixels with
`pred == k` and `truth == k` (pixels paired positionally, as the flattened
tensors are). -/
def interCount (pred target : List ℕ) (k : ℕ) : ℕ :=
  (pred.zip target).countP (fun pt => pt.1 == k && pt.2 == k)

/-- `torch.sum(a | b)` of `update`: the number of pixels with
`pred == k` or `truth == k`. -/
def unionCount (pred target : List ℕ) (k : ℕ) : ℕ :=
  (pred.zip target).countP (fun pt => pt.1 == k || pt.2 == k)

/-- State of the `IoU` metric: `num_classes`, `smooth`, and the running
per-class `inter` and `union` counters (tensors of length `num_classes`). -/
@[ext]
structure IoU where
  numClasses : ℕ
  smooth : ℚ
  inter : List ℚ
  union : List ℚ
deriving DecidableEq, Repr

/-- `IoU.reset`: `inter = torch.zeros(num_classes) + smooth` and likewise for
`union`. -/
def IoU.reset (s : IoU) : IoU :=
  { s with
    inter := List.replicate s.numClasses s.smooth
    union := List.replicate s.numClasses s.smooth }

/-- `IoU.__init__(num_classes, smooth)`: stores the parameters and calls
`reset`. -/
def IoU.init (numClasses : ℕ) (smooth : ℚ) : IoU :=
  IoU.reset { numClasses := numClasses, smooth := smooth, inter := [], union := [] }

/-- `IoU.update(x, y)`. The prediction tensor `x` of shape
`[B, num_classes, ...]` is given as the list of per-pixel class-score vectors
(batch and spatial dimensions flattened, exactly what
`torch.argmax(x, dim=1).view(-1)` traverses); `y` is the flattened label
tensor. For each `k in range(num_classes)`, adds `sum(a & b)` to `inter[k]`
and `sum(a | b)` to `union[k]`. `inter`/`union` always have length
`numClasses` (established by `reset`), matching the indexed writes. -/
def IoU.update (s : IoU) (x : List (List ℚ)) (y : List ℕ) : IoU :=
  let pred := x.map argmaxIdx
  { s with
    inter := (List.range s.numClasses).map
      (fun k => s.inter.getD k 0 + (interCount pred y k : ℚ))
    union := (List.range s.numClasses).map
      (fun k => s.union.getD k 0 + (unionCount pred y k : ℚ)) }

/-- Finiteness-aware division: `fdiv a b` is `none` when the IEEE quotient
`a / b` would be non-finite. For the nonnegative counters of the metric this
is exactly `b = 0` (`0/0 = NaN`, `a/0 = inf`). -/
def fdiv (a b : ℚ) : Option ℚ :=
  if b = 0 then none else some (a / b)

/-- Arithmetic mean of a list, `torch.mean`. -/
def listMean (l : List ℚ) : ℚ :=
  l.sum / (l.length : ℚ)

/-- The list `value[torch.isfinite(value)]` of `IoU.score`: elementwise
`inter / union` with the non-finite entries dropped. -/
def IoU.finiteRatios (s : IoU) : List ℚ :=
  ((s.inter.zip s.union).map (fun ab => fdiv ab.1 ab.2)).filterMap id

/-- `IoU.score`: the mean of the finite per-class ratios. -/
def IoU.score (s : IoU) : ℚ :=
  listMean (IoU.finiteRatios s)

/-- `IoU.mean`: `return self.score()`. -/
def IoU.mean (s : IoU) : ℚ :=
  IoU.score s

/-- A sequence of `update` calls, one per (predictions, targets) batch. -/
def IoU.runUpdates (s : IoU) (batches : List (List (List ℚ) × List ℕ)) : IoU :=
  batches.foldl (fun t b => t.update b.1 b.2) s

/-- The spec's description of `score()`: the arithmetic mean of the per-class
ratios `inter[k] / union[k]` taken over exactly the classes whose ratio is
finite, i.e. those with nonzero union. (Stated from the spec's words, to be
compared with `IoU.score` as translated from the code.) -/
def specScoreMeanOfFinite (s : IoU) : ℚ :=
  listMean (((s.inter.zip s.union).filter (fun ab => ab.2 != 0)).map
    (fun ab => ab.1 / ab.2))

/-! ## Helper lemmas about the IoU embedding -/

theorem getD_map_range (n k : ℕ) (f : ℕ → ℚ) (hk : k < n) :
    ((List.range n).map f).getD k 0 = f k := by
  simp [List.getD_eq_getElem?_getD, List.getElem?_map, List.getElem?_range, hk]

theorem interCount_le_unionCount (pred target : List ℕ) (k : ℕ) :
    interCount pred target k ≤ unionCount pred target k := by
  refine List.countP_mono_left (fun pt _ h => ?_)
  rcases Bool.and_eq_true_iff.mp h with ⟨h1, h2⟩
  simp [h1, h2]

theorem interCount_append (p₁ p₂ t₁ t₂ : List ℕ) (k : ℕ) (h : p₁.length = t₁.length) :
    interCount (p₁ ++ p₂) (t₁ ++ t₂) k = interCount p₁ t₁ k + interCount p₂ t₂ k := by
  unfold interCount
  rw [List.zip_append h, List.countP_append]

theorem unionCount_append (p₁ p₂ t₁ t₂ : List ℕ) (k : ℕ) (h : p₁.length = t₁.length) :
    unionCount (p₁ ++ p₂) (t₁ ++ t₂) k = unionCount p₁ t₁ k + unionCount p₂ t₂ k := by
  unfold unionCount
  rw [List.zip_append h, List.countP_append]

/-- Total intersection count for class `k` over a sequence of update batches. -/
def batchInter (batches : List (List (List ℚ) × List ℕ)) (k : ℕ) : ℕ :=
  (batches.map (fun b => interCount (b.1.map argmaxIdx) b.2 k)).sum

/-- Total union count for class `k` over a sequence of update batches. -/
def batchUnion (batches : List (List (List ℚ) × List ℕ)) (k : ℕ) : ℕ :=
  (batches.map (fun b => unionCount (b.1.map argmaxIdx) b.2 k)).sum

theorem runUpdates_numClasses (batches : List (List (List ℚ) × List ℕ)) :
    ∀ s : IoU, (s.runUpdates batches).numClasses = s.numClasses := by
  induction batches with
  | nil => intro s; rfl
  | cons b bs ih => intro s; exact ih (s.update b.1 b.2)

theorem runUpdates_smooth (batches : List (List (List ℚ) × List ℕ)) :
    ∀ s : IoU, (s.runUpdates batches).smooth = s.smooth := by
  induction batches with
  | nil => intro s; rfl
  | cons b bs ih => intro s; exact ih (s.update b.1 b.2)

theorem runUpdates_inter_canonical (batches : List (List (List ℚ) × List ℕ)) :
    ∀ (s : IoU) (g : ℕ → ℚ), s.inter = (List.range s.numClasses).map g →
      (s.runUpdates batches).inter =
        (List.range s.numClasses).map (fun k => g k + (batchInter batches k : ℚ)) := by
  induction batches with
  | nil =>
      intro s g hg
      simpa [IoU.runUpdates, batchInter] using hg
  | cons b bs ih =>
      intro s g hg
      have hstep : (s.update b.1 b.2).inter =
          (List.range (s.update b.1 b.2).numClasses).map
            (fun k => g k + (interCount (b.1.map argmaxIdx) b.2 k : ℚ)) := by
        show (List.range s.numClasses).map _ = (List.range s.numClasses).map _
        refine List.map_congr_left (fun k hk => ?_)
        rw [hg, getD_map_range _ _ _ (List.mem_range.mp hk)]
      have := ih (s.update b.1 b.2) _ hstep
      rw [show (s.update b.1 b.2).numClasses = s.numClasses from rfl] at this
      show (IoU.runUpdates (s.update b.1 b.2) bs).inter = _
      rw [this]
      refine List.map_congr_left (fun k _ => ?_)
      simp [batchInter, add_assoc]

theorem runUpdates_union_canonical (batches : List (List (List ℚ) × List ℕ)) :
    ∀ (s : IoU) (g : ℕ → ℚ), s.union = (List.range s.numClasses).map g →
      (s.runUpdates batches).union =
        (List.range s.numClasses).map (fun k => g k + (batchUnion batches k : ℚ)) := by
  induction batches with
  | nil =>
      intro s g hg
      simpa [IoU.runUpdates, batchUnion] using hg
  | cons b bs ih =>
      intro s g hg
      have hstep : (s.update b.1 b.2).union =
          (List.range (s.update b.1 b.2).numClasses).map
            (fun k => g k + (unionCount (b.1.map argmaxIdx) b.2 k : ℚ)) := by
        show (List.range s.numClasses).map _ = (List.range s.numClasses).map _
        refine List.map_congr_left (fun k hk => ?_)
        rw [hg, getD_map_range _ _ _ (List.mem_range.mp hk)]
      have := ih (s.update b.1 b.2) _ hstep
      rw [show (s.update b.1 b.2).numClasses = s.numClasses from rfl] at this
      show (IoU.runUpdates (s.update b.1 b.2) bs).union = _
      rw [this]
      refine List.map_congr_left (fun k _ => ?_)
      simp [batchUnion, add_assoc]

theorem init_inter_canonical (n : ℕ) (sm : ℚ) :
    (IoU.init n sm).inter = (List.range n).map (fun _ => sm) := by
  simp [IoU.init, IoU.reset, List.map_const']

theorem init_union_canonical (n : ℕ) (sm : ℚ) :
    (IoU.init n sm).union = (List.range n).map (fun _ => sm) := by
  simp [IoU.init, IoU.reset, List.map_const']

theorem sum_map_div (l : List ℚ) (b : ℚ) :
    (l.map (fun x => x / b)).sum = l.sum / b := by
  induction l with
  | nil => simp
  | cons a t ih => simp [ih, add_div]

theorem fdiv_filterMap_eq_filter (l : List (ℚ × ℚ)) :
    ((l.map (fun ab => fdiv ab.1 ab.2)).filterMap id) =
      (l.filter (fun ab => ab.2 != 0)).map (fun ab => ab.1 / ab.2) := by
  induction l with
  | nil => rfl
  | cons a t ih =>
      by_cases h : a.2 = 0
      · have h1 : fdiv a.1 a.2 = none := by simp [fdiv, h]
        have h2 : (a.2 != 0) = false := by simp [h]
        simp only [List.map_cons, List.filterMap_cons, h1, id_eq, List.filter_cons, h2,
          Bool.false_eq_true, if_false]
        exact ih
      · have h1 : fdiv a.1 a.2 = some (a.1 / a.2) := by simp [fdiv, h]
        have h2 : (a.2 != 0) = true := by simp [h]
        simp only [List.map_cons, List.filterMap_cons, h1, id_eq, List.filter_cons, h2,
          if_true, List.map_cons]
        rw [ih]

/-- When no denominator is zero, `fdiv` keeps every entry. -/
theorem fdiv_filterMap_of_ne {α : Type} (l : List α) (f g : α → ℚ)
    (h : ∀ a ∈ l, g a ≠ 0) :
    ((l.map (fun a => fdiv (f a) (g a))).filterMap id) =
      l.map (fun a => f a / g a) := by
  induction l with
  | nil => rfl
  | cons a t ih =>
      have ha := h a (List.mem_cons_self a t)
      have h1 : fdiv (f a) (g a) = some (f a / g a) := by simp [fdiv, ha]
      simp only [List.map_cons, List.filterMap_cons, h1, id_eq]
      rw [ih (fun x hx => h x (List.mem_cons_of_mem a hx))]

/-! ## Claim theorems about the IoU metric -/

/-- C1: with `num_classes = 2` and `smooth = 0`, after `reset()` and one
`update` whose predictions are one-hot scores favoring class 1 at all 4
pixels and whose targets are `[1,1,0,0]`, the counters are `inter = [0, 2]`
and `union = [2, 4]`, the per-class finite ratios are `[0, 1/2]`, and
`score()` returns their mean `1/4`. -/
theorem iou_two_class_concrete_quarter :
    ((IoU.init 2 0).update [[0,1],[0,1],[0,1],[0,1]] [1,1,0,0]).inter = [0, 2] ∧
    ((IoU.init 2 0).update [[0,1],[0,1],[0,1],[0,1]] [1,1,0,0]).union = [2, 4] ∧
    ((IoU.init 2 0).update [[0,1],[0,1],[0,1],[0,1]] [1,1,0,0]).finiteRatios = [0, 1/2] ∧
    ((IoU.init 2 0).update [[0,1],[0,1],[0,1],[0,1]] [1,1,0,0]).score = 1/4 := by
  norm_num [IoU.init, IoU.reset, IoU.update, interCount, unionCount, argmaxIdx,
    IoU.score, IoU.finiteRatios, fdiv, listMean, List.range_succ, List.countP_cons,
    List.getD, List.filterMap_cons]

/-- C3: IoU accumulation over two `update` calls on a freshly reset
accumulator produces exactly the state of a single `update` on the
concatenated batches (predictions and targets concatenated along the
flattened pixel axis). -/
theorem iou_two_updates_eq_concat_update (n : ℕ) (sm : ℚ)
    (a c : List (List ℚ)) (b d : List ℕ) (hab : a.length = b.length) :
    ((IoU.init n sm).update a b).update c d
      = (IoU.init n sm).update (a ++ c) (b ++ d) := by
  have hlen : (a.map argmaxIdx).length = b.length := by simpa using hab
  apply IoU.ext
  · rfl
  · rfl
  · show (List.range n).map _ = (List.range n).map _
    refine List.map_congr_left (fun k hk => ?_)
    have hk' := List.mem_range.mp hk
    simp only [IoU.update]
    rw [show (IoU.init n sm).numClasses = n from rfl]
    rw [getD_map_range _ _ _ hk', List.map_append, interCount_append _ _ _ _ _ hlen]
    push_cast
    ring
  · show (List.range n).map _ = (List.range n).map _
    refine List.map_congr_left (fun k hk => ?_)
    have hk' := List.mem_range.mp hk
    simp only [IoU.update]
    rw [show (IoU.init n sm).numClasses = n from rfl]
    rw [getD_map_range _ _ _ hk', List.map_append, unionCount_append _ _ _ _ _ hlen]
    push_cast
    ring

/-- Witness for C3 at a concrete input. -/
theorem iou_two_updates_eq_concat_update_witness :
    ((IoU.init 2 0).update [[1,0]] [0]).update [[0,1]] [1]
      = (IoU.init 2 0).update ([[1,0]] ++ [[0,1]]) ([0] ++ [1]) :=
  iou_two_updates_eq_concat_update 2 0 [[1,0]] [[0,1]] [0] [1] rfl

/-- C4: for every accumulator state, `mean()` returns exactly `score()`, and
`score()` is the arithmetic mean of the per-class ratios `inter[k]/union[k]`
taken over exactly the classes whose ratio is finite (nonzero union); classes
with a non-finite ratio are excluded from the mean, and a value is returned
rather than an error being raised. -/
theorem iou_mean_eq_score_eq_finite_mean (s : IoU) :
    IoU.mean s = IoU.score s ∧ IoU.score s = specScoreMeanOfFinite s := by
  refine ⟨rfl, ?_⟩
  unfold IoU.score specScoreMeanOfFinite IoU.finiteRatios
  rw [fdiv_filterMap_eq_filter]

theorem batchInter_le_batchUnion (batches : List (List (List ℚ) × List ℕ)) (k : ℕ) :
    batchInter batches k ≤ batchUnion batches k := by
  unfold batchInter batchUnion
  exact List.sum_le_sum (fun b _ => interCount_le_unionCount _ _ _)

/-- C9: after `reset()` and any sequence of `update()` calls, the accumulator
satisfies `inter[k] ≤ union[k]` for every class `k`; `reset` makes the two
counter lists equal (both the smoothing constant), each update adds
`interCount ≤ unionCount` per class, and consequently every finite per-class
ratio used by `score()` is at most 1 (for a nonnegative smoothing constant). -/
theorem iou_inter_le_union_invariant (n : ℕ) (sm : ℚ) (hs : 0 ≤ sm)
    (batches : List (List (List ℚ) × List ℕ)) (k : ℕ) (hk : k < n) :
    (IoU.init n sm).inter = (IoU.init n sm).union ∧
    (∀ pred target j, interCount pred target j ≤ unionCount pred target j) ∧
    (IoU.runUpdates (IoU.init n sm) batches).inter.getD k 0
        ≤ (IoU.runUpdates (IoU.init n sm) batches).union.getD k 0 ∧
    ∀ r ∈ IoU.finiteRatios (IoU.runUpdates (IoU.init n sm) batches), r ≤ 1 := by
  have hi := runUpdates_inter_canonical batches (IoU.init n sm) (fun _ => sm)
    (init_inter_canonical n sm)
  have hu := runUpdates_union_canonical batches (IoU.init n sm) (fun _ => sm)
    (init_union_canonical n sm)
  rw [show (IoU.init n sm).numClasses = n from rfl] at hi hu
  refine ⟨rfl, fun pred target j => interCount_le_unionCount pred target j, ?_, ?_⟩
  · rw [hi, hu, getD_map_range _ _ _ hk, getD_map_range _ _ _ hk]
    exact add_le_add_left (Nat.cast_le.mpr (batchInter_le_batchUnion batches k)) sm
  · intro r hr
    unfold IoU.finiteRatios at hr
    rw [hi, hu, List.zip_map', List.map_map] at hr
    simp only [List.mem_filterMap, List.mem_map, Function.comp] at hr
    obtain ⟨o, ⟨j, hj, ho⟩, hor⟩ := hr
    rw [← ho] at hor
    unfold fdiv at hor
    by_cases hden : sm + (batchUnion batches j : ℚ) = 0
    · rw [if_pos hden] at hor
      exact absurd hor (by simp)
    · rw [if_neg hden] at hor
      have hr' : r = (sm + (batchInter batches j : ℚ)) / (sm + (batchUnion batches j : ℚ)) := by
        exact (Option.some.injEq _ _ ▸ hor).symm
      have hpos : 0 < sm + (batchUnion batches j : ℚ) :=
        lt_of_le_of_ne (by positivity) (Ne.symm hden)
      rw [hr']
      exact (div_le_one hpos).mpr
        (add_le_add_left (Nat.cast_le.mpr (batchInter_le_batchUnion batches j)) sm)

/-- Witness for C9 at a concrete input. -/
theorem iou_inter_le_union_invariant_witness :
    (IoU.init 2 0).inter = (IoU.init 2 0).union ∧
    (∀ pred target j, interCount pred target j ≤ unionCount pred target j) ∧
    (IoU.runUpdates (IoU.init 2 0) [([[1,0]], [1])]).inter.getD 0 0
        ≤ (IoU.runUpdates (IoU.init 2 0) [([[1,0]], [1])]).union.getD 0 0 ∧
    ∀ r ∈ IoU.finiteRatios (IoU.runUpdates (IoU.init 2 0) [([[1,0]], [1])]), r ≤ 1 :=
  iou_inter_le_union_invariant 2 0 le_rfl [([[1,0]], [1])] 0 (by decide)

/-- C10: with `smooth > 0`, a class `k` that never appears in any prediction
or target over a whole sequence of updates ends with
`inter[k] = union[k] = smooth`; its per-class ratio is the finite value `1`,
no class is discarded at all (the finite-ratio list has full length
`num_classes`, so the discard behavior is specific to `smooth = 0`), and the
value `1` enters the mean computed by `score()`. -/
theorem iou_smooth_pos_unseen_included (n : ℕ) (sm : ℚ) (hs : 0 < sm) (k : ℕ)
    (hk : k < n) (batches : List (List (List ℚ) × List ℕ))
    (hnever : ∀ b ∈ batches, k ∉ b.1.map argmaxIdx ∧ k ∉ b.2) :
    (IoU.runUpdates (IoU.init n sm) batches).inter.getD k 0 = sm ∧
    (IoU.runUpdates (IoU.init n sm) batches).union.getD k 0 = sm ∧
    (IoU.finiteRatios (IoU.runUpdates (IoU.init n sm) batches)).length = n ∧
    (IoU.finiteRatios (IoU.runUpdates (IoU.init n sm) batches)).getD k 0 = 1 ∧
    (1 : ℚ) ∈ IoU.finiteRatios (IoU.runUpdates (IoU.init n sm) batches) := by
  have hi := runUpdates_inter_canonical batches (IoU.init n sm) (fun _ => sm)
    (init_inter_canonical n sm)
  have hu := runUpdates_union_canonical batches (IoU.init n sm) (fun _ => sm)
    (init_union_canonical n sm)
  rw [show (IoU.init n sm).numClasses = n from rfl] at hi hu
  have hbu : batchUnion batches k = 0 := by
    unfold batchUnion
    refine List.sum_eq_zero (fun x hx => ?_)
    obtain ⟨b, hb, hbx⟩ := List.mem_map.mp hx
    obtain ⟨h1, h2⟩ := hnever b hb
    rw [← hbx]
    unfold unionCount
    refine List.countP_eq_zero.mpr (fun pt hpt => ?_)
    obtain ⟨hp1, hp2⟩ := List.of_mem_zip hpt
    have e1 : pt.1 ≠ k := fun e => h1 (e ▸ hp1)
    have e2 : pt.2 ≠ k := fun e => h2 (e ▸ hp2)
    simp [e1, e2]
  have hbi : batchInter batches k = 0 :=
    Nat.le_zero.mp (hbu ▸ batchInter_le_batchUnion batches k)
  have hden : ∀ j, sm + (batchUnion batches j : ℚ) ≠ 0 := fun j => by positivity
  have hfr : IoU.finiteRatios (IoU.runUpdates (IoU.init n sm) batches) =
      (List.range n).map
        (fun j => (sm + (batchInter batches j : ℚ)) / (sm + (batchUnion batches j : ℚ))) := by
    unfold IoU.finiteRatios
    rw [hi, hu, List.zip_map', List.map_map]
    exact fdiv_filterMap_of_ne (List.range n) (fun j => sm + (batchInter batches j : ℚ))
      (fun j => sm + (batchUnion batches j : ℚ)) (fun j _ => hden j)
  refine ⟨?_, ?_, ?_, ?_, ?_⟩
  · rw [hi, getD_map_range _ _ _ hk, hbi]
    simp
  · rw [hu, getD_map_range _ _ _ hk, hbu]
    simp
  · rw [hfr]
    simp
  · rw [hfr, getD_map_range _ _ _ hk, hbi, hbu]
    simp [div_self (ne_of_gt hs)]
  · rw [hfr]
    refine List.mem_map.mpr ⟨k, List.mem_range.mpr hk, ?_⟩
    rw [hbi, hbu]
    simp [div_self (ne_of_gt hs)]

/-- Witness for C10 at a concrete input: class 0 never appears. -/
theorem iou_smooth_pos_unseen_included_witness :
    (IoU.runUpdates (IoU.init 2 1) [([[0,1]], [1])]).inter.getD 0 0 = 1 ∧
    (IoU.runUpdates (IoU.init 2 1) [([[0,1]], [1])]).union.getD 0 0 = 1 ∧
    (IoU.finiteRatios (IoU.runUpdates (IoU.init 2 1) [([[0,1]], [1])])).length = 2 ∧
    (IoU.finiteRatios (IoU.runUpdates (IoU.init 2 1) [([[0,1]], [1])])).getD 0 0 = 1 ∧
    (1 : ℚ) ∈ IoU.finiteRatios (IoU.runUpdates (IoU.init 2 1) [([[0,1]], [1])]) :=
  iou_smooth_pos_unseen_included 2 1 (by norm_num) 0 (by decide) [([[0,1]], [1])]
    (by
      intro b hb
      rw [List.mem_singleton.mp hb]
      refine ⟨?_, ?_⟩ <;> decide)

/-! ## Shape-level embedding of the geometric layers (src/torch3d/nn/layers.py) -/

/-- A tensor shape: the list of dimension sizes. -/
abbrev Shape := List ℕ

/-- The two possible results of a layer `forward`: a lone features tensor
(`return x`) or a `(query_points, features)` pair (`return q, x`). -/
inductive ForwardResult where
  | single (features : Shape)
  | pair (queryPoints features : Shape)
deriving DecidableEq, Repr

/-- Modelled from the spec: `F.knn` (in `torch3d.nn.functional`, outside the
source slice). §4.1: given a reference point set `[B, N, D]` and query points
`[B, Nq, D]`, returns squared distances and the indices of the `k` closest
reference points per query point, shape `[B, Nq, k]`, and fails when `k`
exceeds the reference count. Argument order from the call sites: the first
argument is the set the indices point into, the second the query set. -/
def knnIndexShape : Shape → Shape → ℕ → Option Shape
  | [b, n, d], [b2, m, d2], k =>
      if b = b2 ∧ d = d2 ∧ 1 ≤ k ∧ k ≤ n then some [b2, m, k] else none
  | _, _, _ => none

/-- Modelled from the spec: `F.ball_point` (§4.1). Radius-bounded neighbor
search returning exactly `k` indices per query point (padding by repetition),
shape `[B, Nq, k]`; the radius value does not affect the shape. -/
def ballPointIndexShape : Shape → Shape → ℕ → Option Shape
  | [b, n, d], [b2, m, d2], k =>
      if b = b2 ∧ d = d2 ∧ 1 ≤ k ∧ k ≤ n then some [b2, m, k] else none
  | _, _, _ => none

/-- Modelled from the spec: `F.batched_index_select` (§4.2) along dim 1:
source `[B, N, D]` and flattened per-batch indices `[B, M]` give `[B, M, D]`,
gathering strictly within each batch element. -/
def batchedIndexSelectShape : Shape → Shape → Option Shape
  | [b, _n, d], [b2, m] => if b = b2 then some [b2, m, d] else none
  | _, _ => none

/-- Modelled from the spec: `F.point_interpolate` (§4.3): sparse features
`[B, C, Np]`, per-query indices `[B, Nq, K]` (and same-shape weights), giving
the weighted feature sum `[B, C, Nq]`. -/
def pointInterpolateShape : Shape → Shape → Option Shape
  | [b, c, _np], [b2, m, _k] => if b = b2 then some [b, c, m] else none
  | _, _ => none

/-- `t.view(b, -1)` for a tensor whose first dimension is the batch. -/
def viewBatchFlat : Shape → Option Shape
  | b :: rest => some [b, rest.prod]
  | [] => none

/-- `t.view(base ++ [-1])`: torch infers the final dimension from the element
count, failing when the known dimensions have zero product or do not divide
the element count. -/
def viewInferLast (base : Shape) (t : Shape) : Option Shape :=
  if base.prod ≠ 0 ∧ base.prod ∣ t.prod then some (base ++ [t.prod / base.prod])
  else none

/-- `t.unsqueeze(i)`: insert a dimension of size 1 at position `i`. -/
def unsqueezeDim (i : ℕ) (s : Shape) : Shape := s.take i ++ 1 :: s.drop i

/-- `t.permute(0, 2, 1)` on a rank-3 tensor. -/
def permute021 : Shape → Option Shape
  | [a, b, c] => some [a, c, b]
  | _ => none

/-- `t.permute(0, 3, 1, 2)` on a rank-4 tensor. -/
def permute0312 : Shape → Option Shape
  | [a, b, c, d] => some [a, d, b, c]
  | _ => none

/-- `t.permute(0, 2, 3, 1)` on a rank-4 tensor. -/
def permute0231 : Shape → Option Shape
  | [a, b, c, d] => some [a, c, d, b]
  | _ => none

/-- `t.repeat(r0, r1, r2, r3)` on a rank-4 tensor. -/
def repeat4 (r0 r1 r2 r3 : ℕ) : Shape → Option Shape
  | [a, b, c, d] => some [a * r0, b * r1, c * r2, d * r3]
  | _ => none

/-- One dimension of numpy/torch broadcasting between same-rank tensors. -/
def broadcastDim (a b : ℕ) : Option ℕ :=
  if a = b then some a else if a = 1 then some b else if b = 1 then some a else none

/-- Shape of an elementwise binary operation (such as `x_hat - x`) between
two same-rank tensors under broadcasting. -/
def broadcastShapes : Shape → Shape → Option Shape
  | [], [] => some []
  | a :: s, b :: t =>
      (broadcastDim a b).bind (fun c => (broadcastShapes s t).map (fun u => c :: u))
  | _, _ => none

/-- `torch.cat([·, ·], dim=-1)` on rank-4 tensors. -/
def catLastDim4 : Shape → Shape → Option Shape
  | [a0, a1, a2, a3], [b0, b1, b2, b3] =>
      if a0 = b0 ∧ a1 = b1 ∧ a2 = b2 then some [a0, a1, a2, a3 + b3] else none
  | _, _ => none

/-- `torch.cat([·, ·], dim=1)` on rank-3 tensors. -/
def catDim1Rank3 : Shape → Shape → Option Shape
  | [a0, a1, a2], [b0, b1, b2] =>
      if a0 = b0 ∧ a2 = b2 then some [a0, a1 + b1, a2] else none
  | _, _ => none

/-- `nn.Conv2d(cin, cout, [kh, kw])` (stride 1, no padding): the channel
count must match and the kernel must fit the spatial extent. -/
def conv2dShape (cin cout kh kw : ℕ) : Shape → Option Shape
  | [b, c, h, w] =>
      if c = cin ∧ 1 ≤ kh ∧ kh ≤ h ∧ 1 ≤ kw ∧ kw ≤ w then
        some [b, cout, h - kh + 1, w - kw + 1]
      else none
  | _ => none

/-- `nn.BatchNorm2d(ch)`: shape-preserving, channels must match. The
activations (`ReLU`, `LeakyReLU`) are shape-preserving as well. -/
def batchNorm2dShape (ch : ℕ) : Shape → Option Shape
  | [b, c, h, w] => if c = ch then some [b, c, h, w] else none
  | _ => none

/-- `nn.Conv1d(cin, cout, 1)`: pointwise convolution on `[B, C, N]`. -/
def conv1dShape (cin cout : ℕ) : Shape → Option Shape
  | [b, c, n] => if c = cin ∧ 1 ≤ n then some [b, cout, n] else none
  | _ => none

/-- `nn.BatchNorm1d(ch)`: shape-preserving, channels must match. -/
def batchNorm1dShape (ch : ℕ) : Shape → Option Shape
  | [b, c, n] => if c = ch then some [b, c, n] else none
  | _ => none

/-- `nn.MaxPool2d([1, k])` (stride defaults to the kernel):
`[B, C, H, W] → [B, C, H, W / k]` (floor division), erroring when the window
does not fit. -/
def maxPool2dShape (k : ℕ) : Shape → Option Shape
  | [b, c, h, w] => if 1 ≤ k ∧ k ≤ w then some [b, c, h, w / k] else none
  | _ => none

/-- `t.squeeze(3)`: drop dimension 3 exactly when it has size 1. -/
def squeezeDim3 : Shape → Shape
  | [a, b, c, d] => if d = 1 then [a, b, c] else [a, b, c, d]
  | s => s

/-- `torch.max(t, dim=-1)[0]` on a rank-4 tensor (the reduced dimension must
be nonempty). -/
def maxReduceLast4 : Shape → Option Shape
  | [a, b, c, d] => if 1 ≤ d then some [a, b, c] else none
  | _ => none

/-- `torch.matmul` on two rank-4 tensors (batched matrix product; the call
site needs no broadcasting). -/
def matmul4 : Shape → Shape → Option Shape
  | [a0, a1, a2, a3], [b0, b1, b2, b3] =>
      if a0 = b0 ∧ a1 = b1 ∧ a3 = b2 then some [a0, a1, a2, b3] else none
  | _, _ => none

/-- The `mlp` constructor loop of `SetAbstraction`: a stack of
`Conv2d(last_channels, c, 1) → BatchNorm2d(c) → ReLU` stages applied in
sequence, threading `last_channels`. -/
def convBnStack2d (cIn : ℕ) (channels : List ℕ) (s : Shape) : Option Shape :=
  match channels with
  | [] => some s
  | c :: rest => ((conv2dShape cIn c 1 1 s).bind (batchNorm2dShape c)).bind
      (convBnStack2d c rest)

/-- The `mlp` constructor loop of `FeaturePropagation`:
`Conv1d(last_channels, c, 1) → BatchNorm1d(c) → ReLU` stages in sequence. -/
def convBnStack1d (cIn : ℕ) (channels : List ℕ) (s : Shape) : Option Shape :=
  match channels with
  | [] => some s
  | c :: rest => ((conv1dShape cIn c s).bind (batchNorm1dShape c)).bind
      (convBnStack1d c rest)

/-- `last_channels` after the constructor loop: the output channel count of a
`convBnStack`. -/
def mlpLastChannels (cIn : ℕ) (channels : List ℕ) : ℕ := channels.getLastD cIn

/-- Worker for Python step slicing: `i` counts the elements still to skip
before the next kept element (`d` is the step). -/
def sliceEvery (d : ℕ) : List ℕ → ℕ → List ℕ
  | [], _ => []
  | a :: rest, 0 => a :: sliceEvery d rest (d - 1)
  | _ :: rest, i + 1 => sliceEvery d rest i

/-- Python slicing `l[::d]`: keep positions `0, d, 2d, …`. This is
`index[..., ::self.dilation]` of `XConv.forward` applied to one query point's
row of neighbor indices. -/
def pySliceStep (l : List ℕ) (d : ℕ) : List ℕ := sliceEvery d l 0

/-- `index[..., ::d]` at shape level: slicing the last axis of `[B, M, W]`
with step `d ≥ 1` keeps `⌈W / d⌉ = (W + d - 1) / d` entries per row (see
`pySliceStep_length`). -/
def sliceStepLast3 (d : ℕ) : Shape → Option Shape
  | [b, m, w] => if 1 ≤ d then some [b, m, (w + d - 1) / d] else none
  | _ => none

/-- The `1e-10` floor of `FeaturePropagation.forward`. -/
def fpEps : ℚ := 1 / 10 ^ 10

/-- `sqdist[sqdist < 1e-10] = 1e-10` for one entry. -/
def clampEps (v : ℚ) : ℚ := if v < fpEps then fpEps else v

/-- The interpolation weights of `FeaturePropagation.forward` for one query
point's row of squared distances: clamp at `1e-10`, `torch.reciprocal`, then
`weight / torch.sum(weight, dim=-1, keepdim=True)`. -/
def fpWeights (sqdist : List ℚ) : List ℚ :=
  let w := (sqdist.map clampEps).map (fun v => 1 / v)
  w.map (fun v => v / w.sum)

/-- `EdgeConv.forward(x)` at shape level, following the source line by line
(`none` models a runtime shape error). Note that the source ends with
`return x`: a lone features tensor, not a `(points, features)` pair. -/
def EdgeConv.forwardShape (inChannels outChannels kernelSize : ℕ) (x : Shape) :
    Option ForwardResult :=
  match x with
  | [b, c, n] => do
      let xp := [b, n, c]                                    -- x = x.permute(0, 2, 1)
      let index ← knnIndexShape xp xp kernelSize             -- _, index = F.knn(x, x, self.kernel_size)
      let flat ← viewBatchFlat index                         -- index.view(batch_size, -1)
      let g ← batchedIndexSelectShape xp flat                -- x_hat = F.batched_index_select(x, 1, ...)
      let xHat ← viewInferLast index g                       -- x_hat = x_hat.view(views)
      let xr ← repeat4 1 1 kernelSize 1 (unsqueezeDim 2 xp)  -- x = x.unsqueeze(2).repeat(1, 1, k, 1)
      let xHat2 ← broadcastShapes xHat xr                    -- x_hat = x_hat - x
      let xcat ← catLastDim4 xr xHat2                        -- x = torch.cat([x, x_hat], dim=-1)
      let xc ← permute0312 xcat                              -- x = x.permute(0, 3, 1, 2)
      let y1 ← conv2dShape (inChannels * 2) outChannels 1 1 xc  -- self.conv: Conv2d(in*2, out, 1)
      let y2 ← batchNorm2dShape outChannels y1               -- BatchNorm2d(out); LeakyReLU keeps shape
      let y ← maxReduceLast4 y2                              -- x = torch.max(x, dim=-1, ...)[0]
      some (ForwardResult.single y)                          -- return x
  | _ => none


/-- The gather idiom shared by the layers:
`F.batched_index_select(src, 1, index.view(B, -1)).view(list(index.shape) + [-1])`. -/
def gatherViewShape (src index : Shape) : Option Shape :=
  (viewBatchFlat index).bind
    (fun flat => (batchedIndexSelectShape src flat).bind (viewInferLast index))

/-- `self.mlp` of `XConv`: `Conv2d(3, mid, 1) → BatchNorm2d → ReLU →
Conv2d(mid, mid, 1) → BatchNorm2d → ReLU`, lifting centered coordinates. -/
def XConv.mlpShape (mid : ℕ) (s : Shape) : Option Shape :=
  (((conv2dShape 3 mid 1 1 s).bind (batchNorm2dShape mid)).bind
    (conv2dShape mid mid 1 1)).bind (batchNorm2dShape mid)

/-- `self.stn` of `XConv`: `Conv2d(3, k*k, [1, k]) → BatchNorm2d → ReLU →
Conv2d(k*k, k*k, 1) → BatchNorm2d → ReLU → Conv2d(k*k, k*k, 1)`. -/
def XConv.stnShape (k : ℕ) (s : Shape) : Option Shape :=
  ((((conv2dShape 3 (k * k) 1 k s).bind (batchNorm2dShape (k * k))).bind
    (conv2dShape (k * k) (k * k) 1 1)).bind (batchNorm2dShape (k * k))).bind
    (conv2dShape (k * k) (k * k) 1 1)

/-- `XConv.forward(p, q, x)` at shape level, following the source line by
line, with `mid_channels = out_channels // 4`. -/
def XConv.forwardShape (inChannels outChannels kernelSize dilation : ℕ)
    (p q : Shape) (x : Option Shape) : Option ForwardResult :=
  match p, q with
  | [b, n, dp], [b2, m, dq] => do
      let mid := outChannels / 4
      let index ← (knnIndexShape [b, n, dp] [b2, m, dq]
        (kernelSize * dilation)).bind
        (sliceStepLast3 dilation)        -- _, index = F.knn(p, q, k * dilation); index[..., ::dilation]
      let pv ← gatherViewShape [b, n, dp] index              -- p = gather(p, index).view(views)
      let pHat ← broadcastShapes pv (unsqueezeDim 2 [b2, m, dq])  -- p_hat = p - q.unsqueeze(2)
      let pHatP ← permute0312 pHat                           -- p_hat = p_hat.permute(0, 3, 1, 2)
      let xHat0 ← (XConv.mlpShape mid pHatP).bind
        permute0231                                          -- x_hat = self.mlp(p_hat).permute(0, 2, 3, 1)
      let xHat ← (match x with
        | none => some xHat0
        | some xs =>                                         -- if x is not None:
            (permute021 xs).bind (fun xsp =>                 --   x = x.permute(0, 2, 1)
              (gatherViewShape xsp index).bind               --   x = gather(x, index).view(views)
                (catLastDim4 xHat0)))                        --   x_hat = cat([x_hat, x], dim=-1)
      let tp ← ((XConv.stnShape kernelSize pHatP).bind
        (viewInferLast [b, kernelSize, kernelSize])).bind
        permute0312                  -- T = self.stn(p_hat).view(B, k, k, -1).permute(0, 3, 1, 2)
      let xm ← matmul4 tp xHat                               -- x_hat = torch.matmul(T, x_hat)
      let xcp ← permute0312 xm                               -- x = x_hat.permute(0, 3, 1, 2)
      let y ← (conv2dShape (inChannels + mid) outChannels 1 kernelSize xcp).bind
        (batchNorm2dShape outChannels)                       -- x = self.conv(x)
      some (ForwardResult.pair [b2, m, dq] (squeezeDim3 y))  -- x = x.squeeze(3); return q, x
  | _, _ => none

/-- `SetAbstraction.forward(p, q, x)` at shape level, following the source
line by line. `radius = none` selects the group-all branch
(`x_hat = p.unsqueeze(1)`); `k` is the constructor argument fixed in
`nn.MaxPool2d([1, k])`. The four control paths (radius × features) of the
source are written out. -/
def SetAbstraction.forwardShape (inChannels : ℕ) (mlp : List ℕ) (radius : Option ℚ)
    (k : ℕ) (p q : Shape) (x : Option Shape) : Option ForwardResult :=
  match p, q with
  | [b, n, dp], [b2, m, dq] => do
      let xHat ← (match radius, x with
        | some _, none =>                                       -- radius branch, x is None
            (ballPointIndexShape [b, n, dp] [b2, m, dq] k).bind -- index = F.ball_point(p, q, r, k)
              (fun index => (gatherViewShape [b, n, dp] index).bind
                (fun pv => broadcastShapes pv (unsqueezeDim 2 [b2, m, dq])))
                                                                -- x_hat = p_hat = p - q.unsqueeze(2)
        | some _, some xs =>                                    -- radius branch, x given
            (ballPointIndexShape [b, n, dp] [b2, m, dq] k).bind
              (fun index => (gatherViewShape [b, n, dp] index).bind
                (fun pv => (broadcastShapes pv (unsqueezeDim 2 [b2, m, dq])).bind
                  (fun pHat => (permute021 xs).bind             -- x = x.permute(0, 2, 1)
                    (fun xsp => (gatherViewShape xsp index).bind
                      (catLastDim4 pHat)))))                    -- x_hat = cat([x_hat, x], dim=-1)
        | none, none => some (unsqueezeDim 1 [b, n, dp])        -- x_hat = p.unsqueeze(1)
        | none, some xs =>                                      -- group-all branch, x given:
            catLastDim4 (unsqueezeDim 1 [b, n, dp])             -- x = x.unsqueeze(1)
              (unsqueezeDim 1 xs))                              -- x_hat = cat([x_hat, x], dim=-1)
      let xc ← permute0312 xHat                                 -- x = x_hat.permute(0, 3, 1, 2)
      let y ← (convBnStack2d inChannels mlp xc).bind
        (maxPool2dShape k)                                      -- x = self.maxpool(self.mlp(x))
      some (ForwardResult.pair [b2, m, dq] (squeezeDim3 y))     -- .squeeze(3); return q, x
  | _, _ => none

/-- `FeaturePropagation.forward(p, q, x, y)` at shape level, following the
source line by line. The clamp / reciprocal / normalize steps keep the
`[B, Nq, k]` shape of `sqdist` (their values per row are `fpWeights`). -/
def FeaturePropagation.forwardShape (inChannels : ℕ) (mlp : List ℕ) (k : ℕ)
    (p q x : Shape) (y : Option Shape) : Option ForwardResult :=
  match p, q with
  | [b, n, dp], [b2, m, dq] => do
      let index ← knnIndexShape [b, n, dp] [b2, m, dq] k     -- sqdist, index = F.knn(p, q, self.k)
      let xi ← pointInterpolateShape x index                 -- x = F.point_interpolate(x, index, weight)
      let xc ← (match y with
        | none => some xi
        | some ys => catDim1Rank3 xi ys)                     -- x = torch.cat([x, y], dim=1)
      let z ← convBnStack1d inChannels mlp xc                -- x = self.mlp(x)
      some (ForwardResult.pair [b2, m, dq] z)                -- return q, x
  | _, _ => none
theorem sliceEvery_length (d : ℕ) (hd : 1 ≤ d) :
    ∀ (l : List ℕ) (i : ℕ), i < d →
      (sliceEvery d l i).length = (l.length + d - 1 - i) / d := by
  intro l
  induction l with
  | nil =>
      intro i hi
      simp only [sliceEvery, List.length_nil]
      exact (Nat.div_eq_of_lt (by omega)).symm
  | cons a rest ih =>
      intro i hi
      cases i with
      | zero =>
          have h1 := ih (d - 1) (by omega)
          simp only [sliceEvery, List.length_cons]
          rw [h1]
          have h2 : rest.length + d - 1 - (d - 1) = rest.length := by omega
          have h3 : rest.length + 1 + d - 1 - 0 = rest.length + d := by omega
          rw [h2, h3, Nat.add_div_right _ (by omega)]
      | succ j =>
          have h1 := ih j (by omega)
          simp only [sliceEvery, List.length_cons]
          rw [h1]
          congr 1
          omega

theorem sliceEvery_getElem? (d : ℕ) (hd : 1 ≤ d) :
    ∀ (l : List ℕ) (i j : ℕ), (sliceEvery d l i)[j]? = l[i + j * d]? := by
  intro l
  induction l with
  | nil => intro i j; simp [sliceEvery]
  | cons a rest ih =>
      intro i j
      cases i with
      | zero =>
          cases j with
          | zero => simp [sliceEvery]
          | succ j' =>
              simp only [sliceEvery, List.getElem?_cons_succ]
              rw [ih (d - 1) j']
              have h2 : 0 + (j' + 1) * d = ((d - 1) + j' * d) + 1 := by
                rw [Nat.succ_mul]; omega
              rw [h2, List.getElem?_cons_succ]
      | succ i' =>
          simp only [sliceEvery]
          rw [ih i' j]
          have h2 : i' + 1 + j * d = (i' + j * d) + 1 := by omega
          rw [h2, List.getElem?_cons_succ]

theorem pySliceStep_length (l : List ℕ) (d : ℕ) (hd : 1 ≤ d) :
    (pySliceStep l d).length = (l.length + d - 1) / d := by
  unfold pySliceStep
  rw [sliceEvery_length d hd l 0 (by omega), Nat.sub_zero]

theorem pySliceStep_getElem? (l : List ℕ) (d : ℕ) (hd : 1 ≤ d) (j : ℕ) :
    (pySliceStep l d)[j]? = l[j * d]? := by
  unfold pySliceStep
  rw [sliceEvery_getElem? d hd l 0 j, Nat.zero_add]

/-- C7: `XConv.forward` takes the `K·dilation` nearest neighbors and then
keeps every `dilation`-th of them: on any per-query row of `K·d` neighbor
indices, `index[..., ::d]` keeps exactly `K` entries, the entry at position
`i` being the original entry at position `i·d`; correspondingly the sliced
index tensor entering the gather has last dimension exactly `K`. -/
theorem xconv_dilated_neighbor_selection (k d : ℕ) (hd : 1 ≤ d)
    (nbrs : List ℕ) (hlen : nbrs.length = k * d) :
    (pySliceStep nbrs d).length = k ∧
    (∀ i, i < k → (pySliceStep nbrs d)[i]? = nbrs[i * d]?) ∧
    (∀ b m : ℕ, sliceStepLast3 d [b, m, k * d] = some [b, m, k]) := by
  have harith : (k * d + d - 1) / d = k := by
    have h1 : k * d + d - 1 = (d - 1) + k * d := by omega
    rw [h1, Nat.add_mul_div_right _ _ (by omega : 0 < d),
      Nat.div_eq_of_lt (by omega : d - 1 < d), Nat.zero_add]
  refine ⟨?_, fun i _ => pySliceStep_getElem? nbrs d hd i, fun b m => ?_⟩
  · rw [pySliceStep_length nbrs d hd, hlen, harith]
  · simp only [sliceStepLast3, if_pos hd, harith]

/-- Witness for C7 at a concrete input: `K = 3`, `dilation = 2`, a row of six
neighbor indices. -/
theorem xconv_dilated_neighbor_selection_witness :
    (pySliceStep [10, 11, 12, 13, 14, 15] 2).length = 3 ∧
    (pySliceStep [10, 11, 12, 13, 14, 15] 2)[1]? = [10, 11, 12, 13, 14, 15][2]? ∧
    sliceStepLast3 2 [1, 5, 3 * 2] = some [1, 5, 3] :=
  ⟨(xconv_dilated_neighbor_selection 3 2 (by decide) [10, 11, 12, 13, 14, 15] (by decide)).1,
   (xconv_dilated_neighbor_selection 3 2 (by decide) [10, 11, 12, 13, 14, 15] (by decide)).2.1
     1 (by decide),
   (xconv_dilated_neighbor_selection 3 2 (by decide) [10, 11, 12, 13, 14, 15] (by decide)).2.2
     1 5⟩

theorem fpEps_pos : 0 < fpEps := by norm_num [fpEps]

theorem clampEps_pos (v : ℚ) : 0 < clampEps v := by
  unfold clampEps
  split_ifs with h
  · exact fpEps_pos
  · exact lt_of_lt_of_le fpEps_pos (not_lt.mp h)

theorem clampEps_eq_max (v : ℚ) : clampEps v = max v fpEps := by
  unfold clampEps
  rcases le_or_lt fpEps v with h | h
  · rw [if_neg (not_lt.mpr h), max_eq_left h]
  · rw [if_pos h, max_eq_right (le_of_lt h)]

/-- `fpWeights` written as one map: each weight is the reciprocal of the
clamped squared distance, `1 / max(sqdist_i, 1e-10)`, divided by the row sum
of those reciprocals. -/
theorem fpWeights_eq_map (sqdist : List ℚ) :
    fpWeights sqdist = sqdist.map (fun v =>
      (1 / max v fpEps) / (sqdist.map (fun u => 1 / max u fpEps)).sum) := by
  unfold fpWeights
  simp only [List.map_map]
  refine List.map_congr_left (fun v _ => ?_)
  simp [Function.comp_def, clampEps_eq_max]

/-- C6: in `FeaturePropagation.forward`, the weight of each of the `K`
neighbors of a query point is `1 / max(sqdist_i, 1e-10)` normalized by the
sum over the `K` neighbors; hence every weight is non-negative (in fact
positive) and the weights of every query point sum to `1` along the `K`
axis. -/
theorem featprop_weights_nonneg_sum_one (sqdist : List ℚ) (hne : sqdist ≠ []) :
    (∀ i, i < sqdist.length →
      (fpWeights sqdist)[i]? =
        some ((1 / max (sqdist.getD i 0) fpEps) /
          (sqdist.map (fun u => 1 / max u fpEps)).sum)) ∧
    (∀ w ∈ fpWeights sqdist, 0 ≤ w) ∧
    (fpWeights sqdist).sum = 1 := by
  have hmax : ∀ v : ℚ, 0 < 1 / max v fpEps := fun v =>
    div_pos one_pos (lt_of_lt_of_le fpEps_pos (le_max_right v fpEps))
  have hS : 0 < (sqdist.map (fun u => 1 / max u fpEps)).sum := by
    refine List.sum_pos _ (fun v hv => ?_) (by simp [hne])
    obtain ⟨u, _, huv⟩ := List.mem_map.mp hv
    rw [← huv]
    exact hmax u
  refine ⟨?_, ?_, ?_⟩
  · intro i hi
    rw [fpWeights_eq_map]
    rw [List.getElem?_map, List.getElem?_eq_getElem hi]
    rw [List.getD_eq_getElem?_getD, List.getElem?_eq_getElem hi]
    rfl
  · intro w hw
    rw [fpWeights_eq_map] at hw
    obtain ⟨u, _, huw⟩ := List.mem_map.mp hw
    rw [← huw]
    exact le_of_lt (div_pos (hmax u) hS)
  · rw [fpWeights_eq_map]
    have hsplit : sqdist.map (fun v =>
        (1 / max v fpEps) / (sqdist.map (fun u => 1 / max u fpEps)).sum)
        = (sqdist.map (fun u => 1 / max u fpEps)).map
            (fun x => x / (sqdist.map (fun u => 1 / max u fpEps)).sum) := by
      simp [List.map_map, Function.comp_def]
    rw [hsplit, sum_map_div, div_self (ne_of_gt hS)]

/-- Witness for C6 at a concrete row of squared distances (one of them below
the `1e-10` floor). -/
theorem featprop_weights_nonneg_sum_one_witness :
    ((fpWeights [0, 4])[0]? =
        some ((1 / max ((0 : ℚ)) fpEps) / ([(0 : ℚ), 4].map (fun u => 1 / max u fpEps)).sum)) ∧
    (∀ w ∈ fpWeights [0, 4], 0 ≤ w) ∧
    (fpWeights [0, 4]).sum = 1 :=
  ⟨by
    have h := (featprop_weights_nonneg_sum_one [0, 4] (by decide)).1 0 (by decide)
    simpa using h,
   (featprop_weights_nonneg_sum_one [0, 4] (by decide)).2.1,
   (featprop_weights_nonneg_sum_one [0, 4] (by decide)).2.2⟩

theorem unsqueezeDim2_rank3 (a b c : ℕ) : unsqueezeDim 2 [a, b, c] = [a, b, 1, c] := rfl

theorem unsqueezeDim1_rank3 (a b c : ℕ) : unsqueezeDim 1 [a, b, c] = [a, 1, b, c] := rfl

/-- C8: whenever `EdgeConv.forward` runs on an input of shape `[B, C, N]`,
the output is a single features tensor of shape `[B, out_channels, N]`: the
channel count is the configured `out_channels` and the point count `N` is
preserved exactly. -/
theorem edgeconv_output_channels_and_points (cIn cOut k B C N : ℕ) (r : ForwardResult)
    (h : EdgeConv.forwardShape cIn cOut k [B, C, N] = some r) :
    r = ForwardResult.single [B, cOut, N] := by
  simp only [EdgeConv.forwardShape, knnIndexShape, viewBatchFlat, batchedIndexSelectShape,
    viewInferLast, unsqueezeDim2_rank3, repeat4, broadcastShapes, broadcastDim, catLastDim4,
    permute0312, conv2dShape, batchNorm2dShape, maxReduceLast4, List.prod_cons, List.prod_nil,
    bind, Option.bind_eq_some, Option.ite_none_right_eq_some, Option.some.injEq] at h
  obtain ⟨a, ⟨⟨-, -, hk1, hkN⟩, rfl⟩, flat, hflat, h⟩ := h
  simp only [List.prod_cons, List.prod_nil, mul_one] at hflat
  injection hflat with hflat
  subst hflat
  obtain ⟨g, hg, h⟩ := h
  simp only [eq_self_iff_true, if_true, Option.some.injEq] at hg
  subst hg
  obtain ⟨xh, ⟨⟨hnz, hdvd⟩, rfl⟩, xr, rfl, bc, hbc, h⟩ := h
  simp only [List.prod_cons, List.prod_nil, mul_one] at hnz hdvd hbc h
  have hpos : 0 < B * (N * k) := Nat.pos_of_ne_zero hnz
  have hQ : B * (N * k * C) / (B * (N * k)) = C := by
    rw [show B * (N * k * C) = B * (N * k) * C by ring]
    exact Nat.mul_div_cancel_left C hpos
  rw [hQ] at hbc
  simp only [List.cons_append, List.nil_append, one_mul] at hbc h
  simp [broadcastShapes, broadcastDim] at hbc
  subst hbc
  simp only [eq_self_iff_true, if_true, true_and, Option.some.injEq,
    Option.ite_none_right_eq_some, exists_eq_left, exists_eq_left'] at h
  obtain ⟨a, ⟨⟨hC, -, hN, -, -⟩, rfl⟩, h⟩ := h
  simp only [eq_self_iff_true, if_true, Option.some.injEq, exists_eq_left', le_add_self] at h
  subst h
  have hN1 : N - 1 + 1 = N := by omega
  rw [hN1]

/-- Witness for C8 at a concrete input (`in_channels = 2`,
`out_channels = 5`, `K = 2`, input `[1, 2, 4]`). -/
theorem edgeconv_output_channels_and_points_witness :
    ForwardResult.single [1, 5, 4] = ForwardResult.single [1, 5, 4] :=
  edgeconv_output_channels_and_points 2 5 2 1 2 4 (ForwardResult.single [1, 5, 4]) (by decide)

theorem edgeconv_forward_single (cIn cOut k : ℕ) (x : Shape) (r : ForwardResult)
    (h : EdgeConv.forwardShape cIn cOut k x = some r) :
    ∃ f, r = ForwardResult.single f := by
  rcases x with - | ⟨b, - | ⟨c, - | ⟨n, - | ⟨e, t⟩⟩⟩⟩ <;>
    simp only [EdgeConv.forwardShape, bind, Option.bind_eq_some] at h <;>
    try exact Option.noConfusion h
  obtain ⟨a1, -, a2, -, a3, -, a4, -, a5, -, a6, -, a7, -, a8, -, a9, -, a10, -, a11, -, hr⟩ := h
  exact ⟨a11, (Option.some.inj hr).symm⟩

theorem xconv_forward_pair (cIn cOut k d : ℕ) (p q : Shape) (x : Option Shape)
    (r : ForwardResult) (h : XConv.forwardShape cIn cOut k d p q x = some r) :
    ∃ f, r = ForwardResult.pair q f := by
  rcases p with - | ⟨b, - | ⟨n, - | ⟨dp, - | ⟨e, t⟩⟩⟩⟩ <;>
    rcases q with - | ⟨b2, - | ⟨m, - | ⟨dq, - | ⟨e2, t2⟩⟩⟩⟩ <;>
    simp only [XConv.forwardShape, bind, Option.bind_eq_some] at h <;>
    try exact Option.noConfusion h
  obtain ⟨a1, -, a2, -, a3, -, a4, -, a5, -, a6, -, a7, -, a8, -, a9, -, a10, -, hr⟩ := h
  exact ⟨squeezeDim3 a10, (Option.some.inj hr).symm⟩

theorem setabstraction_forward_pair (cIn : ℕ) (mlp : List ℕ) (radius : Option ℚ) (k : ℕ)
    (p q : Shape) (x : Option Shape) (r : ForwardResult)
    (h : SetAbstraction.forwardShape cIn mlp radius k p q x = some r) :
    ∃ f, r = ForwardResult.pair q f := by
  rcases p with - | ⟨b, - | ⟨n, - | ⟨dp, - | ⟨e, t⟩⟩⟩⟩ <;>
    rcases q with - | ⟨b2, - | ⟨m, - | ⟨dq, - | ⟨e2, t2⟩⟩⟩⟩ <;>
    simp only [SetAbstraction.forwardShape, bind, Option.bind_eq_some] at h <;>
    try exact Option.noConfusion h
  obtain ⟨a1, -, a2, -, a3, -, hr⟩ := h
  exact ⟨squeezeDim3 a3, (Option.some.inj hr).symm⟩

theorem featprop_forward_pair (cIn : ℕ) (mlp : List ℕ) (k : ℕ)
    (p q x : Shape) (y : Option Shape) (r : ForwardResult)
    (h : FeaturePropagation.forwardShape cIn mlp k p q x y = some r) :
    ∃ f, r = ForwardResult.pair q f := by
  rcases p with - | ⟨b, - | ⟨n, - | ⟨dp, - | ⟨e, t⟩⟩⟩⟩ <;>
    rcases q with - | ⟨b2, - | ⟨m, - | ⟨dq, - | ⟨e2, t2⟩⟩⟩⟩ <;>
    simp only [FeaturePropagation.forwardShape, bind, Option.bind_eq_some] at h <;>
    try exact Option.noConfusion h
  obtain ⟨a1, -, a2, -, a3, -, a4, -, hr⟩ := h
  exact ⟨a4, (Option.some.inj hr).symm⟩

/-- C2 counterexample: at a concrete valid input, `EdgeConv.forward` returns
a lone features tensor (`return x`), which is not equal to a
`(query_points, features)` pair for any choice of components — so not every
Geometric Layer returns such a pair. -/
theorem edgeconv_not_pair_counterexample :
    EdgeConv.forwardShape 2 5 2 [1, 2, 4] = some (ForwardResult.single [1, 5, 4]) ∧
    ∀ qp f : Shape, ForwardResult.single [1, 5, 4] ≠ ForwardResult.pair qp f :=
  ⟨by decide, fun qp f h => ForwardResult.noConfusion h⟩

/-- C2 (amended): `XConv`, `SetAbstraction` and `FeaturePropagation` return a
pair `(query_points, features)` whose first component is exactly the query
points argument, on every input on which they run; `EdgeConv.forward` instead
returns the features tensor alone. -/
theorem layers_forward_result_forms :
    (∀ cIn cOut k x r, EdgeConv.forwardShape cIn cOut k x = some r →
        ∃ f, r = ForwardResult.single f) ∧
    (∀ cIn cOut k d p q x r, XConv.forwardShape cIn cOut k d p q x = some r →
        ∃ f, r = ForwardResult.pair q f) ∧
    (∀ cIn mlp radius k p q x r, SetAbstraction.forwardShape cIn mlp radius k p q x = some r →
        ∃ f, r = ForwardResult.pair q f) ∧
    (∀ cIn mlp k p q x y r, FeaturePropagation.forwardShape cIn mlp k p q x y = some r →
        ∃ f, r = ForwardResult.pair q f) :=
  ⟨edgeconv_forward_single, xconv_forward_pair, setabstraction_forward_pair,
    featprop_forward_pair⟩

/-- Witness for the amended C2 at concrete inputs of all four layers. -/
theorem layers_forward_result_forms_witness :
    (∃ f, ForwardResult.single [1, 5, 4] = ForwardResult.single f) ∧
    (∃ f, ForwardResult.pair [1, 2, 3] [1, 8, 2] = ForwardResult.pair [1, 2, 3] f) ∧
    (∃ f, ForwardResult.pair [1, 1, 3] [1, 5, 1, 2] = ForwardResult.pair [1, 1, 3] f) ∧
    (∃ f, ForwardResult.pair [1, 8, 3] [1, 7, 8] = ForwardResult.pair [1, 8, 3] f) :=
  ⟨layers_forward_result_forms.1 2 5 2 [1, 2, 4] _ (by decide),
   layers_forward_result_forms.2.1 2 8 2 1 [1, 4, 3] [1, 2, 3] (some [1, 2, 4]) _ (by decide),
   layers_forward_result_forms.2.2.1 3 [5] none 2 [1, 4, 3] [1, 1, 3] none _ (by decide),
   layers_forward_result_forms.2.2.2 6 [7] 3 [1, 5, 3] [1, 8, 3] [1, 2, 5] (some [1, 4, 8]) _
     (by decide)⟩

theorem convBnStack2d_shape (mlp : List ℕ) :
    ∀ (cIn b c h w : ℕ) (u : Shape), convBnStack2d cIn mlp [b, c, h, w] = some u →
      ∃ c', u = [b, c', h, w] := by
  induction mlp with
  | nil =>
      intro cIn b c h w u hu
      exact ⟨c, (Option.some.inj hu).symm⟩
  | cons ch rest ih =>
      intro cIn b c h w u hu
      simp only [convBnStack2d, bind, Option.bind_eq_some] at hu
      obtain ⟨a, ha, hrest⟩ := hu
      simp only [conv2dShape, batchNorm2dShape, bind, Option.bind_eq_some,
        Option.ite_none_right_eq_some, Option.some.injEq] at ha
      obtain ⟨a1, ⟨⟨hc, -, hh, -, hw⟩, rfl⟩, ha2⟩ := ha
      simp only [eq_self_iff_true, if_true, Option.some.injEq] at ha2
      subst ha2
      obtain ⟨c', hc'⟩ := ih ch b ch (h - 1 + 1) (w - 1 + 1) u hrest
      have e1 : h - 1 + 1 = h := by omega
      have e2 : w - 1 + 1 = w := by omega
      rw [e1, e2] at hc'
      exact ⟨c', hc'⟩

/-- C5 (amended): with `radius = None`, when the input point count `N` equals
the constructor argument `k` (the window of the fixed `nn.MaxPool2d([1, k])`),
`SetAbstraction.forward` reduces each batch element's `N` points into exactly
one output feature vector: whenever it succeeds, the returned features have
the one-vector shape `[B, c, 1]`. The original claim's `regardless of N` is
refuted by the counterexample with `N = 2k`. -/
theorem setabstraction_groupall_one_vector (cIn : ℕ) (mlp : List ℕ) (k b n dp b2 m dq : ℕ)
    (x : Option Shape) (r : ForwardResult)
    (h : SetAbstraction.forwardShape cIn mlp none k [b, n, dp] [b2, m, dq] x = some r)
    (hnk : n = k) :
    ∃ c', r = ForwardResult.pair [b2, m, dq] [b, c', 1] := by
  subst hnk
  simp only [SetAbstraction.forwardShape, bind, Option.bind_eq_some] at h
  obtain ⟨xh, hxh, xc, hxc, y, ⟨u, hstack, hpool⟩, hr⟩ := h
  have hxh4 : ∃ dpx, xh = [b, 1, n, dpx] := by
    rcases x with - | xs
    · simp only [unsqueezeDim1_rank3, Option.some.injEq] at hxh
      exact ⟨dp, hxh.symm⟩
    · rcases xs with - | ⟨s1, - | ⟨s2, - | ⟨s3, - | ⟨e, t⟩⟩⟩⟩ <;>
        simp only [unsqueezeDim, catLastDim4, List.take, List.drop, List.cons_append,
          List.nil_append, Option.ite_none_right_eq_some, Option.some.injEq] at hxh <;>
        try exact Option.noConfusion hxh
      obtain ⟨-, hxh⟩ := hxh
      exact ⟨dp + s3, hxh.symm⟩
  obtain ⟨dpx, rfl⟩ := hxh4
  simp only [permute0312, Option.some.injEq] at hxc
  subst hxc
  obtain ⟨c', rfl⟩ := convBnStack2d_shape mlp cIn b dpx 1 n u hstack
  simp only [maxPool2dShape, Option.ite_none_right_eq_some, Option.some.injEq] at hpool
  obtain ⟨⟨hk1, -⟩, rfl⟩ := hpool
  rw [Nat.div_self (by omega : 0 < n)] at hr
  simp only [squeezeDim3, if_pos rfl, Option.some.injEq] at hr
  exact ⟨c', hr.symm⟩

/-- C5 counterexample: with `radius = None` and constructor `k = 2`, an input
of `N = 4` points is not reduced to one feature vector per batch element:
`nn.MaxPool2d([1, k])` pools windows of the fixed constructor size `k`, so
the output features have shape `[1, 5, 1, 2]` — two pooled vectors — which is
not of the one-vector form `[1, c, 1]` for any `c`. -/
theorem setabstraction_groupall_counterexample :
    SetAbstraction.forwardShape 3 [5] none 2 [1, 4, 3] [1, 1, 3] none
      = some (ForwardResult.pair [1, 1, 3] [1, 5, 1, 2]) ∧
    ∀ c : ℕ, [1, 5, 1, 2] ≠ [1, c, 1] :=
  ⟨by decide, fun c h => by simp at h⟩

/-- Witness for the amended C5 at a concrete input with `N = k = 4`. -/
theorem setabstraction_groupall_one_vector_witness :
    ∃ c', ForwardResult.pair [1, 1, 3] [1, 5, 1]
      = ForwardResult.pair ([1, 1, 3] : Shape) [1, c', 1] :=
  setabstraction_groupall_one_vector 3 [5] 4 1 4 3 1 1 3 none
    (ForwardResult.pair [1, 1, 3] [1, 5, 1]) (by decide) rfl
